import Mathlib

/-!
Shallow embedding of the Enigma machine simulator (src/main.cpp).

Conventions of the embedding:
* C++ `char` is modelled by Lean `Char`; `std::string` by `List Char`.
* C++ `int` is modelled by `Int`; the C++ `%` operator truncates toward
  zero, which is `Int.tmod` (not Lean's `%`, which is `Int.emod`).
* `std::map<char, char>` is modelled by an association list with
  assignment semantics (`mapSet`): lookups agree with the C++ map; only
  the iteration order (irrelevant to the claims) differs.
* Exceptions thrown by constructors and by `Plugboard::connect` are
  modelled with `Except String`; a throw happens before any mutation in
  the source, so the error branch carries no new state.
* Out-of-range `std::string` indexing is undefined behaviour in C++; the
  embedding uses `List.getD` with a null-character default there, and a
  separate `Option`-valued checked variant of the signal path records
  exactly when every index is in range.
-/

/-- Constant ALPHABET_SIZE from the source. -/
def ALPHABET_SIZE : Int := 26

/-- Constant FIRST_LETTER from the source, the character A. -/
def FIRST_LETTER : Char := 'A'

/-- C++ std toupper in the default locale: maps a lowercase ASCII letter
(codes 97 to 122) to its uppercase form, all other characters unchanged. -/
def cpp_toupper (c : Char) : Char :=
  if 97 ≤ c.toNat ∧ c.toNat ≤ 122 then Char.ofNat (c.toNat - 32) else c

/-- C++ std isalpha in the default locale: true exactly on the ASCII
letters A to Z and a to z. -/
def cpp_isalpha (c : Char) : Bool :=
  (65 ≤ c.toNat && c.toNat ≤ 90) || (97 ≤ c.toNat && c.toNat ≤ 122)

/-- Utility charToIndex from the source: toupper(c) - FIRST_LETTER. -/
def charToIndex (c : Char) : Int :=
  ((cpp_toupper c).toNat : Int) - (FIRST_LETTER.toNat : Int)

/-- Utility indexToChar from the source: FIRST_LETTER + (index % ALPHABET_SIZE),
with the truncating C++ remainder. -/
def indexToChar (index : Int) : Char :=
  Char.ofNat ((FIRST_LETTER.toNat : Int) + index.tmod ALPHABET_SIZE).toNat

/-- EnigmaComponent::applyOffset from the source, with the component's
position and ringSetting fields passed explicitly. -/
def applyOffset (position ringSetting : Int) (signal : Int) (forward : Bool) : Int :=
  let offset := position - ringSetting
  let offset := if offset < 0 then offset + ALPHABET_SIZE else offset
  if forward then (signal + offset).tmod ALPHABET_SIZE
  else (signal - offset + ALPHABET_SIZE).tmod ALPHABET_SIZE

/-- Rotor::buildReverseWiring from the source: a 26-entry table, initially
null characters (std::string::resize), where for each i the entry at index
charToIndex(wiring[i]) is set to indexToChar(i).  An out-of-range target
index would be undefined behaviour in C++ and is modelled as a no-op; for
letter wirings the index is always in range. -/
def buildReverseWiring (wiring : List Char) : List Char :=
  (List.range 26).foldl
    (fun acc i =>
      let output := wiring.getD i (Char.ofNat 0)
      let outputIndex := charToIndex output
      if 0 ≤ outputIndex ∧ outputIndex < 26 then acc.set outputIndex.toNat (indexToChar (i : Int))
      else acc)
    (List.replicate 26 (Char.ofNat 0))

/-- The Rotor class: the EnigmaComponent base fields (wiring, name,
position, ringSetting) plus the derived reverseWiring and the notch. -/
structure Rotor where
  wiring : List Char
  name : String
  position : Int
  ringSetting : Int
  reverseWiring : List Char
  notchPosition : Int
deriving DecidableEq

/-- Rotor construction: the EnigmaComponent base constructor throws when
the wiring length is not 26, then buildReverseWiring runs. -/
def mkRotor (wiring : List Char) (notch : Int) (name : String) : Except String Rotor :=
  if wiring.length ≠ 26 then Except.error "Wiring must be exactly 26 characters"
  else Except.ok
    { wiring := wiring, name := name, position := 0, ringSetting := 0,
      reverseWiring := buildReverseWiring wiring, notchPosition := notch }

/-- EnigmaComponent::setPosition: position = pos % 26 (truncating). -/
def Rotor.setPosition (r : Rotor) (pos : Int) : Rotor :=
  { r with position := pos.tmod ALPHABET_SIZE }

/-- EnigmaComponent::setRingSetting: ringSetting = setting % 26. -/
def Rotor.setRingSetting (r : Rotor) (setting : Int) : Rotor :=
  { r with ringSetting := setting.tmod ALPHABET_SIZE }

/-- EnigmaComponent::rotate: position = (position + 1) % 26. -/
def Rotor.rotate (r : Rotor) : Rotor :=
  { r with position := (r.position + 1).tmod ALPHABET_SIZE }

/-- Rotor::isAtNotch: position == notchPosition. -/
def Rotor.isAtNotch (r : Rotor) : Bool :=
  r.position == r.notchPosition

/-- Rotor::process: offset in, wiring (forward) or reverseWiring
(backward), offset out, as in the source. -/
def Rotor.process (r : Rotor) (input : Char) (forward : Bool) : Char :=
  let signal := charToIndex input
  let signal := applyOffset r.position r.ringSetting signal forward
  let signal :=
    if forward then charToIndex (r.wiring.getD signal.toNat (Char.ofNat 0))
    else charToIndex (r.reverseWiring.getD signal.toNat (Char.ofNat 0))
  let signal := applyOffset r.position r.ringSetting signal (!forward)
  indexToChar signal

/-- The Reflector class: the EnigmaComponent base fields; position and
ringSetting are inherited but never used by Reflector::process. -/
structure Reflector where
  wiring : List Char
  name : String
  position : Int
  ringSetting : Int
deriving DecidableEq

/-- Reflector construction: the base constructor's length check. -/
def mkReflector (wiring : List Char) (name : String) : Except String Reflector :=
  if wiring.length ≠ 26 then Except.error "Wiring must be exactly 26 characters"
  else Except.ok { wiring := wiring, name := name, position := 0, ringSetting := 0 }

/-- Reflector::process: one-directional table lookup, no offsets. -/
def Reflector.process (refl : Reflector) (input : Char) : Char :=
  refl.wiring.getD (charToIndex input).toNat (Char.ofNat 0)

/-- Assignment into the association list modelling std::map: replace the
value at an existing key, else append a new entry. -/
def mapSet : List (Char × Char) → Char → Char → List (Char × Char)
  | [], k, v => [(k, v)]
  | p :: rest, k, v => if p.1 = k then (k, v) :: rest else p :: mapSet rest k v

/-- The Plugboard class: the connections map. -/
structure Plugboard where
  connections : List (Char × Char)
deriving DecidableEq

/-- Plugboard::connect: uppercase both letters, throw if either is
already a key of the map, otherwise insert the pair both ways. -/
def Plugboard.connect (pb : Plugboard) (a b : Char) : Except String Plugboard :=
  let a := cpp_toupper a
  let b := cpp_toupper b
  if (pb.connections.lookup a).isSome ∨ (pb.connections.lookup b).isSome then
    Except.error "One or both letters are already connected"
  else
    Except.ok { connections := mapSet (mapSet pb.connections a b) b a }

/-- Plugboard::clearConnections. -/
def Plugboard.clearConnections (_pb : Plugboard) : Plugboard :=
  { connections := [] }

/-- Plugboard::process: uppercase the input, return the paired letter if
present, else the (uppercased) input. -/
def Plugboard.process (pb : Plugboard) (input : Char) : Char :=
  let input := cpp_toupper input
  match pb.connections.lookup input with
  | some c => c
  | none => input

/-- The EnigmaMachine class.  The constructor enforces exactly three
rotors, so the machine state carries them as the three fields rotorL,
rotorM, rotorR, corresponding to rotors[0], rotors[1], rotors[2]. -/
structure EnigmaMachine where
  rotorL : Rotor
  rotorM : Rotor
  rotorR : Rotor
  reflector : Reflector
  plugboard : Plugboard
deriving DecidableEq

/-- EnigmaMachine construction: throws unless given exactly 3 rotors;
the plugboard member starts default-constructed (empty). -/
def mkEnigmaMachine (rotors : List Rotor) (reflector : Reflector) :
    Except String EnigmaMachine :=
  match rotors with
  | [r0, r1, r2] =>
      Except.ok { rotorL := r0, rotorM := r1, rotorR := r2,
                  reflector := reflector, plugboard := { connections := [] } }
  | _ => Except.error "Enigma machine requires exactly 3 rotors"

/-- EnigmaMachine::rotateRotors: rotate the right rotor, then read the
right rotor's notch state (after its rotation) and the middle rotor's
notch state, then apply the two conditional rotations. -/
def rotateRotors (m : EnigmaMachine) : EnigmaMachine :=
  let r2 := m.rotorR.rotate
  let rotateMiddle := r2.isAtNotch
  let rotateLeft := m.rotorM.isAtNotch
  let r1 := if rotateMiddle then m.rotorM.rotate else m.rotorM
  let r0 := if rotateMiddle then m.rotorL.rotate else m.rotorL
  let r0 := if rotateLeft then r0.rotate else r0
  { m with rotorL := r0, rotorM := r1, rotorR := r2 }

/-- EnigmaMachine::encryptChar: step the rotors, then plugboard, forward
pass right-to-left, reflector, backward pass left-to-right, plugboard.
Returns the mutated machine together with the output character. -/
def encryptChar (m : EnigmaMachine) (input : Char) : EnigmaMachine × Char :=
  let m := rotateRotors m
  let result := m.plugboard.process input
  let result := m.rotorR.process result true
  let result := m.rotorM.process result true
  let result := m.rotorL.process result true
  let result := m.reflector.process result
  let result := m.rotorL.process result false
  let result := m.rotorM.process result false
  let result := m.rotorR.process result false
  let result := m.plugboard.process result
  (m, result)

/-- EnigmaMachine::encrypt: encryptChar on alphabetic characters, other
characters appended unchanged.  The source's loop accumulates the output
string left to right; this structural recursion produces the same output
and final state. -/
def encrypt (m : EnigmaMachine) : List Char → EnigmaMachine × List Char
  | [] => (m, [])
  | c :: cs =>
      if cpp_isalpha c then
        let step := encryptChar m c
        let rest := encrypt step.1 cs
        (rest.1, step.2 :: rest.2)
      else
        let rest := encrypt m cs
        (rest.1, c :: rest.2)

/-- EnigmaMachine::setRotorPositions. -/
def setRotorPositions (m : EnigmaMachine) (left middle right : Int) : EnigmaMachine :=
  { m with rotorL := m.rotorL.setPosition left,
           rotorM := m.rotorM.setPosition middle,
           rotorR := m.rotorR.setPosition right }

/-- EnigmaMachine::setRingSettings. -/
def setRingSettings (m : EnigmaMachine) (left middle right : Int) : EnigmaMachine :=
  { m with rotorL := m.rotorL.setRingSetting left,
           rotorM := m.rotorM.setRingSetting middle,
           rotorR := m.rotorR.setRingSetting right }

/-- EnigmaFactory::createRotorI (wiring EKMFLGDQVZNTOWYHXUSPAIBRCJ, notch 16). -/
def createRotorI (position ringSetting : Int) : Rotor :=
  (Rotor.setRingSetting (Rotor.setPosition
    { wiring := "EKMFLGDQVZNTOWYHXUSPAIBRCJ".toList, name := "Rotor I",
      position := 0, ringSetting := 0,
      reverseWiring := buildReverseWiring "EKMFLGDQVZNTOWYHXUSPAIBRCJ".toList,
      notchPosition := 16 } position) ringSetting)

/-- EnigmaFactory::createRotorII (wiring AJDKSIRUXBLHWTMCQGZNPYFVOE, notch 4). -/
def createRotorII (position ringSetting : Int) : Rotor :=
  (Rotor.setRingSetting (Rotor.setPosition
    { wiring := "AJDKSIRUXBLHWTMCQGZNPYFVOE".toList, name := "Rotor II",
      position := 0, ringSetting := 0,
      reverseWiring := buildReverseWiring "AJDKSIRUXBLHWTMCQGZNPYFVOE".toList,
      notchPosition := 4 } position) ringSetting)

/-- EnigmaFactory::createRotorIII (wiring BDFHJLCPRTXVZNYEIWGAKMUSQO, notch 21). -/
def createRotorIII (position ringSetting : Int) : Rotor :=
  (Rotor.setRingSetting (Rotor.setPosition
    { wiring := "BDFHJLCPRTXVZNYEIWGAKMUSQO".toList, name := "Rotor III",
      position := 0, ringSetting := 0,
      reverseWiring := buildReverseWiring "BDFHJLCPRTXVZNYEIWGAKMUSQO".toList,
      notchPosition := 21 } position) ringSetting)

/-- EnigmaFactory::createReflectorB (wiring YRUHQSLDPXNGOKMIEBFZCWVJAT). -/
def createReflectorB : Reflector :=
  { wiring := "YRUHQSLDPXNGOKMIEBFZCWVJAT".toList, name := "Reflector B",
    position := 0, ringSetting := 0 }

/-- The machine assembled by the demo driver in main(): rotors I, II, III
with the base constructor state, reflector B, rotor positions set to
0, 1, 2, ring settings 0, 0, 0, and plugboard pairs AB, CD, EF. -/
def demoMachine : EnigmaMachine :=
  { rotorL := (createRotorI 0 0).setPosition 0,
    rotorM := (createRotorII 0 0).setPosition 1,
    rotorR := (createRotorIII 0 0).setPosition 2,
    reflector := createReflectorB,
    plugboard :=
      { connections := mapSet (mapSet (mapSet (mapSet (mapSet (mapSet []
          'A' 'B') 'B' 'A') 'C' 'D') 'D' 'C') 'E' 'F') 'F' 'E' } }

/-- The plugboard state reached by connecting A with B from an empty
plugboard, used to instantiate the plugboard theorems. -/
def pbAB : Plugboard := { connections := [('A', 'B'), ('B', 'A')] }

/-!
Checked variants of the signal path.  C++ `std::string::operator[]` has
undefined behaviour out of range; these `Option`-valued variants return
`none` exactly when an index leaves the table, so "encryption never fails
once construction succeeded" is a statement about them.
-/

/-- Checked character lookup: some value only for an in-range index. -/
def charAtChecked (l : List Char) (i : Int) : Option Char :=
  if 0 ≤ i ∧ i.toNat < l.length then l.get? i.toNat else none

/-- Rotor::process with checked table indexing. -/
def Rotor.processChecked (r : Rotor) (input : Char) (forward : Bool) : Option Char :=
  let signal := charToIndex input
  let signal := applyOffset r.position r.ringSetting signal forward
  match charAtChecked (if forward then r.wiring else r.reverseWiring) signal with
  | none => none
  | some outputChar =>
      let signal := charToIndex outputChar
      let signal := applyOffset r.position r.ringSetting signal (!forward)
      some (indexToChar signal)

/-- Reflector::process with checked table indexing. -/
def Reflector.processChecked (refl : Reflector) (input : Char) : Option Char :=
  charAtChecked refl.wiring (charToIndex input)

/-- EnigmaMachine::encryptChar with checked table indexing at every rotor
and reflector stage. -/
def encryptCharChecked (m : EnigmaMachine) (input : Char) : Option Char :=
  let m := rotateRotors m
  let result := m.plugboard.process input
  match m.rotorR.processChecked result true with
  | none => none
  | some result =>
  match m.rotorM.processChecked result true with
  | none => none
  | some result =>
  match m.rotorL.processChecked result true with
  | none => none
  | some result =>
  match m.reflector.processChecked result with
  | none => none
  | some result =>
  match m.rotorL.processChecked result false with
  | none => none
  | some result =>
  match m.rotorM.processChecked result false with
  | none => none
  | some result =>
  match m.rotorR.processChecked result false with
  | none => none
  | some result => some (m.plugboard.process result)

/-!
Well-formedness predicates.  They state exactly what holds for machines
assembled from the factory data: wirings are permutations of the
uppercase alphabet, positions and ring settings lie in 0..25, and the
plugboard map is a symmetric pairing of uppercase letters.  All are
decidable so that concrete machines can discharge them by evaluation.
-/

/-- The character is an uppercase ASCII letter. -/
def IsUpper (c : Char) : Prop := 65 ≤ c.toNat ∧ c.toNat ≤ 90

instance (c : Char) : Decidable (IsUpper c) := by unfold IsUpper; infer_instance

/-- The character is not a lowercase ASCII letter. -/
def NotLower (c : Char) : Prop := ¬ (97 ≤ c.toNat ∧ c.toNat ≤ 122)

instance (c : Char) : Decidable (NotLower c) := by unfold NotLower; infer_instance

/-- The 26 uppercase letters in order. -/
def upperAlphabet : List Char := "ABCDEFGHIJKLMNOPQRSTUVWXYZ".toList

/-- The wiring is a permutation of the uppercase alphabet, phrased
decidably: length 26 and every uppercase letter occurs. -/
def IsAlphabetPerm (w : List Char) : Prop :=
  w.length = 26 ∧ ∀ c ∈ upperAlphabet, c ∈ w

instance (w : List Char) : Decidable (IsAlphabetPerm w) := by
  unfold IsAlphabetPerm; infer_instance

/-- Rotor well-formedness: both wiring tables are alphabet permutations
and position and ring setting are reduced residues. -/
def RotorWF (r : Rotor) : Prop :=
  IsAlphabetPerm r.wiring ∧ IsAlphabetPerm r.reverseWiring ∧
  0 ≤ r.position ∧ r.position < 26 ∧ 0 ≤ r.ringSetting ∧ r.ringSetting < 26

instance (r : Rotor) : Decidable (RotorWF r) := by unfold RotorWF; infer_instance

/-- Plugboard well-formedness: keys are distinct, the map is symmetric,
and every stored character is an uppercase letter. -/
def PlugboardWF (pb : Plugboard) : Prop :=
  (pb.connections.map Prod.fst).Nodup ∧
  ∀ p ∈ pb.connections,
    (p.2, p.1) ∈ pb.connections ∧ IsUpper p.1 ∧ IsUpper p.2

instance (pb : Plugboard) : Decidable (PlugboardWF pb) := by
  unfold PlugboardWF; infer_instance

/-- Machine well-formedness: all five components well-formed. -/
def MachineWF (m : EnigmaMachine) : Prop :=
  RotorWF m.rotorL ∧ RotorWF m.rotorM ∧ RotorWF m.rotorR ∧
  IsAlphabetPerm m.reflector.wiring ∧ PlugboardWF m.plugboard

instance (m : EnigmaMachine) : Decidable (MachineWF m) := by
  unfold MachineWF; infer_instance

/-!
Plugboard state machine: the states reachable through the public
interface (default construction, clearConnections, successful connect).
-/

inductive PlugReachable : Plugboard → Prop where
  | empty : PlugReachable { connections := [] }
  | clear (pb : Plugboard) : PlugReachable pb → PlugReachable pb.clearConnections
  | conn (pb : Plugboard) (a b : Char) (pb' : Plugboard) :
      PlugReachable pb → pb.connect a b = Except.ok pb' → PlugReachable pb'

/-- Lookup-level symmetry invariant of the plugboard: every stored pair
is stored in both directions and no stored value is a lowercase letter. -/
def PlugSymm (pb : Plugboard) : Prop :=
  ∀ a b : Char, pb.connections.lookup a = some b →
    pb.connections.lookup b = some a ∧ NotLower b

/-!
Basic character lemmas.
-/

theorem char_toNat_inj {c d : Char} (h : c.toNat = d.toNat) : c = d := by
  apply Char.eq_of_val_eq
  have hv : c.val.toNat = d.val.toNat := h
  exact UInt32.toNat.inj hv

theorem char_ofNat_toNat {n : Nat} (h : n < 55296) : (Char.ofNat n).toNat = n := by
  have hv : n.isValidChar := Or.inl (by omega)
  simp only [Char.ofNat, hv, reduceDIte, Char.ofNatAux, Char.toNat]
  rfl

theorem toupper_of_notLower {c : Char} (h : NotLower c) : cpp_toupper c = c := by
  unfold cpp_toupper
  unfold NotLower at h
  simp [h]

theorem isUpper_notLower {c : Char} (h : IsUpper c) : NotLower c := by
  unfold IsUpper at h; unfold NotLower; omega

theorem toupper_of_upper {c : Char} (h : IsUpper c) : cpp_toupper c = c :=
  toupper_of_notLower (isUpper_notLower h)

theorem toupper_notLower (c : Char) : NotLower (cpp_toupper c) := by
  unfold cpp_toupper
  by_cases h : 97 ≤ c.toNat ∧ c.toNat ≤ 122
  · simp only [h, and_self, if_true]
    unfold NotLower
    rw [char_ofNat_toNat (by omega)]
    omega
  · simp only [h, if_false]
    unfold NotLower
    exact h

theorem toupper_upper_of_alpha {c : Char} (h : cpp_isalpha c = true) :
    IsUpper (cpp_toupper c) := by
  unfold cpp_isalpha at h
  simp only [Bool.or_eq_true, Bool.and_eq_true, decide_eq_true_eq] at h
  unfold cpp_toupper
  rcases h with h | h
  · rw [if_neg (by omega)]
    unfold IsUpper; omega
  · rw [if_pos (by omega)]
    unfold IsUpper
    rw [char_ofNat_toNat (by omega)]
    omega

theorem upper_isalpha {c : Char} (h : IsUpper c) : cpp_isalpha c = true := by
  unfold IsUpper at h
  unfold cpp_isalpha
  simp only [Bool.or_eq_true, Bool.and_eq_true, decide_eq_true_eq]
  omega

/-!
Index arithmetic lemmas.
-/

theorem charToIndex_of_upper {c : Char} (h : IsUpper c) :
    charToIndex c = (c.toNat : Int) - 65 := by
  unfold charToIndex
  rw [toupper_of_upper h]
  rfl

theorem charToIndex_range_of_upper {c : Char} (h : IsUpper c) :
    0 ≤ charToIndex c ∧ charToIndex c < 26 := by
  rw [charToIndex_of_upper h]
  unfold IsUpper at h
  omega

theorem charToIndex_inj_of_upper {c d : Char} (hc : IsUpper c) (hd : IsUpper d)
    (h : charToIndex c = charToIndex d) : c = d := by
  rw [charToIndex_of_upper hc, charToIndex_of_upper hd] at h
  exact char_toNat_inj (by omega)

theorem indexToChar_toNat_of_nat : ∀ n : Nat, n < 26 →
    (indexToChar (n : Int)).toNat = 65 + n := by decide

theorem indexToChar_eq_of_range {i : Int} (h0 : 0 ≤ i) (h26 : i < 26) :
    (indexToChar i).toNat = 65 + i.toNat := by
  have hn : i = (i.toNat : Int) := by omega
  rw [hn]
  exact indexToChar_toNat_of_nat i.toNat (by omega)

theorem indexToChar_upper {i : Int} (h0 : 0 ≤ i) (h26 : i < 26) :
    IsUpper (indexToChar i) := by
  unfold IsUpper
  rw [indexToChar_eq_of_range h0 h26]
  omega

theorem indexToChar_inj {i j : Int} (hi0 : 0 ≤ i) (hi26 : i < 26)
    (hj0 : 0 ≤ j) (hj26 : j < 26) (h : indexToChar i = indexToChar j) : i = j := by
  have := congrArg Char.toNat h
  rw [indexToChar_eq_of_range hi0 hi26, indexToChar_eq_of_range hj0 hj26] at this
  omega

theorem charToIndex_indexToChar {i : Int} (h0 : 0 ≤ i) (h26 : i < 26) :
    charToIndex (indexToChar i) = i := by
  rw [charToIndex_of_upper (indexToChar_upper h0 h26),
    indexToChar_eq_of_range h0 h26]
  omega

/-!
applyOffset lemmas.  On the reduced state space (position and ring
setting in 0..25) and for non-negative signals the truncating remainder
agrees with the mathematical one, making the operation a modular shift.
-/

theorem applyOffset_eq_emod {p r s : Int} (hp0 : 0 ≤ p) (hp : p < 26)
    (hr0 : 0 ≤ r) (hr : r < 26) (hs : 0 ≤ s) (f : Bool) :
    applyOffset p r s f =
      (if f then s + (p - r) % 26 else s - (p - r) % 26 + 26) % 26 := by
  unfold applyOffset ALPHABET_SIZE
  by_cases hneg : p - r < 0
  · simp only [hneg, if_true]
    cases f
    · simp only [Bool.false_eq_true, if_false]
      rw [Int.tmod_eq_emod (by omega) (by omega)]
      omega
    · simp only [if_true]
      rw [Int.tmod_eq_emod (by omega) (by omega)]
      omega
  · simp only [hneg, if_false]
    cases f
    · simp only [Bool.false_eq_true, if_false]
      rw [Int.tmod_eq_emod (by omega) (by omega)]
      omega
    · simp only [if_true]
      rw [Int.tmod_eq_emod (by omega) (by omega)]
      omega

theorem applyOffset_range {p r s : Int} (hp0 : 0 ≤ p) (hp : p < 26)
    (hr0 : 0 ≤ r) (hr : r < 26) (hs : 0 ≤ s) (f : Bool) :
    0 ≤ applyOffset p r s f ∧ applyOffset p r s f < 26 := by
  rw [applyOffset_eq_emod hp0 hp hr0 hr hs]
  cases f <;> simp <;> omega

theorem applyOffset_inj {p r s t : Int} (hp0 : 0 ≤ p) (hp : p < 26)
    (hr0 : 0 ≤ r) (hr : r < 26) (hs0 : 0 ≤ s) (hs : s < 26)
    (ht0 : 0 ≤ t) (ht : t < 26) (f : Bool)
    (h : applyOffset p r s f = applyOffset p r t f) : s = t := by
  rw [applyOffset_eq_emod hp0 hp hr0 hr hs0,
    applyOffset_eq_emod hp0 hp hr0 hr ht0] at h
  cases f <;> simp at h <;> omega

/-!
Alphabet permutation lemmas.
-/

theorem alphabetPerm_perm {w : List Char} (h : IsAlphabetPerm w) :
    upperAlphabet.Perm w := by
  obtain ⟨hlen, hmem⟩ := h
  have hnd : upperAlphabet.Nodup := by decide
  have hsub : upperAlphabet ⊆ w := fun c hc => hmem c hc
  obtain ⟨l, hl, hsl⟩ := List.subperm_of_subset hnd hsub
  have hll : l = w := hsl.eq_of_length (by rw [hl.length_eq]; rw [hlen]; decide)
  rw [← hll]
  exact hl.symm

theorem alphabetPerm_nodup {w : List Char} (h : IsAlphabetPerm w) : w.Nodup :=
  (alphabetPerm_perm h).nodup (by decide)

theorem alphabetPerm_mem_upper {w : List Char} (h : IsAlphabetPerm w)
    {c : Char} (hc : c ∈ w) : IsUpper c := by
  have : c ∈ upperAlphabet := ((alphabetPerm_perm h).mem_iff).mpr hc
  have hall : ∀ c ∈ upperAlphabet, IsUpper c := by decide
  exact hall c this

theorem tableGetD_eq_getElem {w : List Char} {i : Nat} (h : i < w.length)
    (d : Char) : w.getD i d = w[i] := by
  simp [List.getD_eq_getElem?_getD, List.getElem?_eq_getElem h]

theorem tableGet_upper {w : List Char} (h : IsAlphabetPerm w) {i : Nat}
    (hi : i < 26) (d : Char) : IsUpper (w.getD i d) := by
  have hlen : i < w.length := by rw [h.1]; exact hi
  rw [tableGetD_eq_getElem hlen]
  exact alphabetPerm_mem_upper h (List.getElem_mem hlen)

theorem tableGet_inj {w : List Char} (h : IsAlphabetPerm w) {i j : Nat}
    (hi : i < 26) (hj : j < 26) (d : Char)
    (heq : w.getD i d = w.getD j d) : i = j := by
  have hli : i < w.length := by rw [h.1]; exact hi
  have hlj : j < w.length := by rw [h.1]; exact hj
  rw [tableGetD_eq_getElem hli, tableGetD_eq_getElem hlj] at heq
  exact ((alphabetPerm_nodup h).getElem_inj_iff).mp heq

/-!
Rotor and reflector stage lemmas: each stage maps uppercase letters to
uppercase letters, injectively, and its checked variant succeeds there.
-/

theorem rotor_process_eq {r : Rotor} (c : Char) (f : Bool) :
    r.process c f =
      indexToChar (applyOffset r.position r.ringSetting
        (charToIndex ((if f then r.wiring else r.reverseWiring).getD
          (applyOffset r.position r.ringSetting (charToIndex c) f).toNat
          (Char.ofNat 0))) (!f)) := by
  unfold Rotor.process
  cases f <;> simp

theorem rotor_table_wf {r : Rotor} (h : RotorWF r) (f : Bool) :
    IsAlphabetPerm (if f then r.wiring else r.reverseWiring) := by
  cases f
  · simpa using h.2.1
  · simpa using h.1

theorem rotor_process_upper {r : Rotor} (h : RotorWF r) {c : Char}
    (hc : IsUpper c) (f : Bool) : IsUpper (r.process c f) := by
  obtain ⟨hw, hrw, hp0, hp, hr0, hr⟩ := h
  rw [rotor_process_eq]
  have h0 := charToIndex_range_of_upper hc
  have h1 := applyOffset_range hp0 hp hr0 hr h0.1 f
  have h2 : IsUpper ((if f then r.wiring else r.reverseWiring).getD
      (applyOffset r.position r.ringSetting (charToIndex c) f).toNat (Char.ofNat 0)) :=
    tableGet_upper (rotor_table_wf ⟨hw, hrw, hp0, hp, hr0, hr⟩ f) (by omega) _
  have h3 := charToIndex_range_of_upper h2
  have h4 := applyOffset_range hp0 hp hr0 hr h3.1 (!f)
  exact indexToChar_upper h4.1 h4.2

theorem rotor_process_inj {r : Rotor} (h : RotorWF r) {c d : Char}
    (hc : IsUpper c) (hd : IsUpper d) (f : Bool)
    (heq : r.process c f = r.process d f) : c = d := by
  obtain ⟨hw, hrw, hp0, hp, hr0, hr⟩ := h
  have htab := rotor_table_wf ⟨hw, hrw, hp0, hp, hr0, hr⟩ f
  rw [rotor_process_eq, rotor_process_eq] at heq
  have hc0 := charToIndex_range_of_upper hc
  have hd0 := charToIndex_range_of_upper hd
  have hc1 := applyOffset_range hp0 hp hr0 hr hc0.1 f
  have hd1 := applyOffset_range hp0 hp hr0 hr hd0.1 f
  have hc2 : IsUpper ((if f then r.wiring else r.reverseWiring).getD
      (applyOffset r.position r.ringSetting (charToIndex c) f).toNat (Char.ofNat 0)) :=
    tableGet_upper htab (by omega) _
  have hd2 : IsUpper ((if f then r.wiring else r.reverseWiring).getD
      (applyOffset r.position r.ringSetting (charToIndex d) f).toNat (Char.ofNat 0)) :=
    tableGet_upper htab (by omega) _
  have hc3 := charToIndex_range_of_upper hc2
  have hd3 := charToIndex_range_of_upper hd2
  have hc4 := applyOffset_range hp0 hp hr0 hr hc3.1 (!f)
  have hd4 := applyOffset_range hp0 hp hr0 hr hd3.1 (!f)
  have e1 := indexToChar_inj hc4.1 hc4.2 hd4.1 hd4.2 heq
  have e2 := applyOffset_inj hp0 hp hr0 hr hc3.1 hc3.2 hd3.1 hd3.2 (!f) e1
  have e3 := charToIndex_inj_of_upper hc2 hd2 e2
  have e4 : (applyOffset r.position r.ringSetting (charToIndex c) f).toNat =
      (applyOffset r.position r.ringSetting (charToIndex d) f).toNat :=
    tableGet_inj htab (by omega) (by omega) _ e3
  have e5 : applyOffset r.position r.ringSetting (charToIndex c) f =
      applyOffset r.position r.ringSetting (charToIndex d) f := by omega
  have e6 := applyOffset_inj hp0 hp hr0 hr hc0.1 hc0.2 hd0.1 hd0.2 f e5
  exact charToIndex_inj_of_upper hc hd e6

theorem charAtChecked_some {w : List Char} {i : Int} (h0 : 0 ≤ i)
    (hlen : i.toNat < w.length) :
    charAtChecked w i = some (w.getD i.toNat (Char.ofNat 0)) := by
  unfold charAtChecked
  rw [if_pos (And.intro h0 hlen), List.get?_eq_getElem?,
    List.getElem?_eq_getElem hlen, tableGetD_eq_getElem hlen]

theorem rotor_processChecked_eq {r : Rotor} (h : RotorWF r) {c : Char}
    (hc : IsUpper c) (f : Bool) :
    r.processChecked c f = some (r.process c f) := by
  obtain ⟨hw, hrw, hp0, hp, hr0, hr⟩ := h
  have htab := rotor_table_wf ⟨hw, hrw, hp0, hp, hr0, hr⟩ f
  have h0 := charToIndex_range_of_upper hc
  have h1 := applyOffset_range hp0 hp hr0 hr h0.1 f
  have hidx : (applyOffset r.position r.ringSetting (charToIndex c) f).toNat <
      (if f then r.wiring else r.reverseWiring).length := by
    rw [htab.1]; omega
  simp only [Rotor.processChecked, charAtChecked_some h1.1 hidx]
  rw [rotor_process_eq]

theorem refl_process_upper {refl : Reflector} (h : IsAlphabetPerm refl.wiring)
    {c : Char} (hc : IsUpper c) : IsUpper (refl.process c) := by
  unfold Reflector.process
  have h0 := charToIndex_range_of_upper hc
  exact tableGet_upper h (by omega) _

theorem refl_process_inj {refl : Reflector} (h : IsAlphabetPerm refl.wiring)
    {c d : Char} (hc : IsUpper c) (hd : IsUpper d)
    (heq : refl.process c = refl.process d) : c = d := by
  unfold Reflector.process at heq
  have hc0 := charToIndex_range_of_upper hc
  have hd0 := charToIndex_range_of_upper hd
  have e1 : (charToIndex c).toNat = (charToIndex d).toNat :=
    tableGet_inj h (by omega) (by omega) _ heq
  exact charToIndex_inj_of_upper hc hd (by omega)

theorem refl_processChecked_eq {refl : Reflector} (h : IsAlphabetPerm refl.wiring)
    {c : Char} (hc : IsUpper c) :
    refl.processChecked c = some (refl.process c) := by
  have h0 := charToIndex_range_of_upper hc
  have hidx : (charToIndex c).toNat < refl.wiring.length := by rw [h.1]; omega
  unfold Reflector.processChecked Reflector.process charAtChecked
  rw [if_pos ⟨h0.1, hidx⟩, List.get?_eq_getElem?, List.getElem?_eq_getElem hidx,
    tableGetD_eq_getElem hidx]

/-!
Plugboard map lemmas.
-/

theorem lookup_mapSet_self (m : List (Char × Char)) (k v : Char) :
    (mapSet m k v).lookup k = some v := by
  induction m with
  | nil => simp [mapSet, List.lookup]
  | cons p rest ih =>
      by_cases hpk : p.1 = k
      · simp [mapSet, hpk, List.lookup]
      · simp only [mapSet, hpk, if_false]
        rw [List.lookup_cons]
        have : (k == p.1) = false := by
          simp only [beq_eq_false_iff_ne]
          exact fun hk => hpk hk.symm
        simp [this, ih]

theorem lookup_mapSet_ne (m : List (Char × Char)) (k v x : Char) (h : x ≠ k) :
    (mapSet m k v).lookup x = m.lookup x := by
  induction m with
  | nil =>
      have hbe : (x == k) = false := by simp [h]
      simp [mapSet, List.lookup, hbe]
  | cons p rest ih =>
      by_cases hpk : p.1 = k
      · subst hpk
        simp only [mapSet, if_true]
        rw [List.lookup_cons, List.lookup_cons]
        have : (x == p.1) = false := by simp [h]
        simp [this]
      · simp only [mapSet, hpk, if_false]
        rw [List.lookup_cons, List.lookup_cons]
        cases hbe : x == p.1
        · simp [ih]
        · simp

theorem lookup_mem {m : List (Char × Char)} {k v : Char}
    (h : m.lookup k = some v) : (k, v) ∈ m := by
  induction m with
  | nil => simp [List.lookup] at h
  | cons p rest ih =>
      rw [List.lookup_cons] at h
      cases hbe : k == p.1
      · simp only [hbe] at h
        exact List.mem_cons_of_mem _ (ih h)
      · simp only [hbe] at h
        have hk : k = p.1 := by simpa using hbe
        have : p = (k, v) := by
          cases p
          simp at h hk ⊢
          exact ⟨hk.symm, h⟩
        rw [this] at *
        exact List.mem_cons_self _ _

theorem mem_lookup_of_nodupkeys {m : List (Char × Char)} {k v : Char}
    (hnd : (m.map Prod.fst).Nodup) (h : (k, v) ∈ m) : m.lookup k = some v := by
  induction m with
  | nil => simp at h
  | cons p rest ih =>
      rw [List.map_cons, List.nodup_cons] at hnd
      rcases List.mem_cons.mp h with heq | hmem
      · rw [← heq]
        rw [List.lookup_cons]
        simp
      · have hne : k ≠ p.1 := by
          intro hk
          apply hnd.1
          rw [← hk]
          exact List.mem_map.mpr ⟨(k, v), hmem, rfl⟩
        rw [List.lookup_cons]
        have : (k == p.1) = false := by simp [hne]
        simp only [this]
        exact ih hnd.2 hmem

theorem plugboardWF_symm {pb : Plugboard} (h : PlugboardWF pb) : PlugSymm pb := by
  intro a b hab
  have hmem := lookup_mem hab
  obtain ⟨hsym, _, hub⟩ := h.2 (a, b) hmem
  exact ⟨mem_lookup_of_nodupkeys h.1 hsym, isUpper_notLower hub⟩

theorem plugboardWF_upper {pb : Plugboard} (h : PlugboardWF pb) {a b : Char}
    (hab : pb.connections.lookup a = some b) : IsUpper b :=
  (h.2 (a, b) (lookup_mem hab)).2.2

theorem plug_process_involution {pb : Plugboard} (h : PlugSymm pb) {c : Char}
    (hcu : cpp_toupper c = c) : pb.process (pb.process c) = c := by
  unfold Plugboard.process
  rw [hcu]
  cases hl : pb.connections.lookup c with
  | none => simp [hl, hcu]
  | some b =>
      obtain ⟨hba, hnl⟩ := h c b hl
      simp only [hl]
      rw [toupper_of_notLower hnl, hba]

theorem plug_process_upper {pb : Plugboard} (h : PlugboardWF pb) {c : Char}
    (hc : cpp_isalpha c = true) : IsUpper (pb.process c) := by
  unfold Plugboard.process
  cases hl : pb.connections.lookup (cpp_toupper c) with
  | none =>
      simp only [hl]
      exact toupper_upper_of_alpha hc
  | some b =>
      simp only [hl]
      exact plugboardWF_upper h hl

theorem plug_process_inj {pb : Plugboard} (h : PlugboardWF pb) {c d : Char}
    (hc : IsUpper c) (hd : IsUpper d)
    (heq : pb.process c = pb.process d) : c = d := by
  have hs := plugboardWF_symm h
  have hc2 := plug_process_involution hs (toupper_of_upper hc)
  have hd2 := plug_process_involution hs (toupper_of_upper hd)
  rw [← hc2, ← hd2, heq]

/-!
Stepping lemmas.
-/

theorem rotate_position (r : Rotor) : r.rotate.position = (r.position + 1).tmod 26 := rfl

theorem rotate_frame (r : Rotor) :
    r.rotate.wiring = r.wiring ∧ r.rotate.reverseWiring = r.reverseWiring ∧
    r.rotate.ringSetting = r.ringSetting ∧ r.rotate.notchPosition = r.notchPosition := by
  unfold Rotor.rotate
  exact ⟨rfl, rfl, rfl, rfl⟩

theorem tmod_step {p : Int} (h0 : 0 ≤ p) (h : p < 26) :
    (p + 1).tmod 26 = (p + 1) % 26 :=
  Int.tmod_eq_emod (by omega) (by omega)

theorem tmod_step_range {p : Int} (h0 : 0 ≤ p) (h : p < 26) :
    0 ≤ (p + 1).tmod 26 ∧ (p + 1).tmod 26 < 26 := by
  rw [tmod_step h0 h]
  omega

theorem rotorWF_rotate {r : Rotor} (h : RotorWF r) : RotorWF r.rotate := by
  obtain ⟨hw, hrw, hp0, hp, hr0, hr⟩ := h
  have hf := rotate_frame r
  have hpos := tmod_step_range hp0 hp
  exact ⟨by rw [hf.1]; exact hw, by rw [hf.2.1]; exact hrw,
    by rw [rotate_position]; exact hpos.1, by rw [rotate_position]; exact hpos.2,
    by rw [hf.2.2.1]; exact hr0, by rw [hf.2.2.1]; exact hr⟩

theorem rotateRotors_rotorR (m : EnigmaMachine) :
    (rotateRotors m).rotorR = m.rotorR.rotate := rfl

theorem rotateRotors_rotorM (m : EnigmaMachine) :
    (rotateRotors m).rotorM =
      (if m.rotorR.rotate.isAtNotch then m.rotorM.rotate else m.rotorM) := rfl

theorem rotateRotors_rotorL (m : EnigmaMachine) :
    (rotateRotors m).rotorL =
      (if m.rotorM.isAtNotch then
        (if m.rotorR.rotate.isAtNotch then m.rotorL.rotate else m.rotorL).rotate
       else (if m.rotorR.rotate.isAtNotch then m.rotorL.rotate else m.rotorL)) := by
  unfold rotateRotors
  by_cases h1 : m.rotorR.rotate.isAtNotch = true <;>
    by_cases h2 : m.rotorM.isAtNotch = true <;> simp [h1, h2]

theorem rotateRotors_reflector (m : EnigmaMachine) :
    (rotateRotors m).reflector = m.reflector := rfl

theorem rotateRotors_plugboard (m : EnigmaMachine) :
    (rotateRotors m).plugboard = m.plugboard := rfl

theorem machineWF_rotateRotors {m : EnigmaMachine} (h : MachineWF m) :
    MachineWF (rotateRotors m) := by
  obtain ⟨hL, hM, hR, hrefl, hpb⟩ := h
  refine ⟨?_, ?_, ?_, ?_, ?_⟩
  · rw [rotateRotors_rotorL]
    by_cases h1 : m.rotorM.isAtNotch = true <;>
      by_cases h2 : m.rotorR.rotate.isAtNotch = true <;>
        simp [h1, h2] <;> first
          | exact hL
          | exact rotorWF_rotate hL
          | exact rotorWF_rotate (rotorWF_rotate hL)
  · rw [rotateRotors_rotorM]
    by_cases h2 : m.rotorR.rotate.isAtNotch = true <;> simp [h2] <;> first
      | exact hM
      | exact rotorWF_rotate hM
  · rw [rotateRotors_rotorR]
    exact rotorWF_rotate hR
  · rw [rotateRotors_reflector]
    exact hrefl
  · rw [rotateRotors_plugboard]
    exact hpb

theorem tmod_step_twice {p : Int} (h0 : 0 ≤ p) (h : p < 26) :
    ((p + 1).tmod 26 + 1).tmod 26 = (p + 2) % 26 := by
  rw [tmod_step h0 h]
  rw [Int.tmod_eq_emod (by omega) (by omega)]
  omega

theorem isAtNotch_iff {r : Rotor} :
    r.isAtNotch = true ↔ r.position = r.notchPosition := by
  unfold Rotor.isAtNotch
  exact beq_iff_eq

theorem rotateRotors_positionR (m : EnigmaMachine)
    (h0 : 0 ≤ m.rotorR.position) (h : m.rotorR.position < 26) :
    (rotateRotors m).rotorR.position = (m.rotorR.position + 1) % 26 := by
  rw [rotateRotors_rotorR, rotate_position, tmod_step h0 h]

theorem rotateRotors_positionM (m : EnigmaMachine)
    (hM0 : 0 ≤ m.rotorM.position) (hM : m.rotorM.position < 26)
    (hR0 : 0 ≤ m.rotorR.position) (hR : m.rotorR.position < 26) :
    (rotateRotors m).rotorM.position =
      (if (m.rotorR.position + 1) % 26 = m.rotorR.notchPosition
       then (m.rotorM.position + 1) % 26 else m.rotorM.position) := by
  rw [rotateRotors_rotorM]
  have hcond : m.rotorR.rotate.isAtNotch = true ↔
      (m.rotorR.position + 1) % 26 = m.rotorR.notchPosition := by
    rw [isAtNotch_iff, rotate_position, rotate_frame m.rotorR |>.2.2.2,
      tmod_step hR0 hR]
  by_cases hn : (m.rotorR.position + 1) % 26 = m.rotorR.notchPosition
  · rw [if_pos (hcond.mpr hn), if_pos hn, rotate_position, tmod_step hM0 hM]
  · rw [if_neg (fun hb => hn (hcond.mp hb)), if_neg hn]

theorem rotateRotors_positionL (m : EnigmaMachine)
    (hL0 : 0 ≤ m.rotorL.position) (hL : m.rotorL.position < 26)
    (hR0 : 0 ≤ m.rotorR.position) (hR : m.rotorR.position < 26) :
    (rotateRotors m).rotorL.position =
      (m.rotorL.position +
        (if (m.rotorR.position + 1) % 26 = m.rotorR.notchPosition then 1 else 0) +
        (if m.rotorM.position = m.rotorM.notchPosition then 1 else 0)) % 26 := by
  rw [rotateRotors_rotorL]
  have hcond : m.rotorR.rotate.isAtNotch = true ↔
      (m.rotorR.position + 1) % 26 = m.rotorR.notchPosition := by
    rw [isAtNotch_iff, rotate_position, rotate_frame m.rotorR |>.2.2.2,
      tmod_step hR0 hR]
  have hcondM : m.rotorM.isAtNotch = true ↔
      m.rotorM.position = m.rotorM.notchPosition := isAtNotch_iff
  by_cases hn : (m.rotorR.position + 1) % 26 = m.rotorR.notchPosition <;>
    by_cases hm : m.rotorM.position = m.rotorM.notchPosition
  · rw [if_pos (hcondM.mpr hm), if_pos (hcond.mpr hn), if_pos hn, if_pos hm,
      rotate_position, rotate_position, tmod_step_twice hL0 hL]
    ring_nf
  · rw [if_neg (fun hb => hm (hcondM.mp hb)), if_pos (hcond.mpr hn), if_pos hn,
      if_neg hm, rotate_position, tmod_step hL0 hL]
    norm_num
  · rw [if_pos (hcondM.mpr hm), if_neg (fun hb => hn (hcond.mp hb)), if_neg hn,
      if_pos hm, rotate_position, tmod_step hL0 hL]
    norm_num
  · rw [if_neg (fun hb => hm (hcondM.mp hb)), if_neg (fun hb => hn (hcond.mp hb)),
      if_neg hn, if_neg hm]
    norm_num
    rw [Int.emod_eq_of_lt hL0 hL]

/-!
Per-character signal path lemmas.
-/

theorem encryptChar_fst (m : EnigmaMachine) (c : Char) :
    (encryptChar m c).1 = rotateRotors m := rfl

theorem encryptChar_upper {m : EnigmaMachine} (h : MachineWF m) {c : Char}
    (hc : cpp_isalpha c = true) : IsUpper (encryptChar m c).2 := by
  obtain ⟨hL, hM, hR, hrefl, hpb⟩ := machineWF_rotateRotors h
  exact plug_process_upper hpb (upper_isalpha
    (rotor_process_upper hR
      (rotor_process_upper hM
        (rotor_process_upper hL
          (refl_process_upper hrefl
            (rotor_process_upper hL
              (rotor_process_upper hM
                (rotor_process_upper hR
                  (plug_process_upper hpb hc) true) true) true)) false) false) false))

theorem encryptChar_inj {m : EnigmaMachine} (h : MachineWF m) {c d : Char}
    (hc : IsUpper c) (hd : IsUpper d)
    (heq : (encryptChar m c).2 = (encryptChar m d).2) : c = d := by
  obtain ⟨hL, hM, hR, hrefl, hpb⟩ := machineWF_rotateRotors h
  have c1 := plug_process_upper hpb (upper_isalpha hc)
  have c2 := rotor_process_upper hR c1 true
  have c3 := rotor_process_upper hM c2 true
  have c4 := rotor_process_upper hL c3 true
  have c5 := refl_process_upper hrefl c4
  have c6 := rotor_process_upper hL c5 false
  have c7 := rotor_process_upper hM c6 false
  have c8 := rotor_process_upper hR c7 false
  have d1 := plug_process_upper hpb (upper_isalpha hd)
  have d2 := rotor_process_upper hR d1 true
  have d3 := rotor_process_upper hM d2 true
  have d4 := rotor_process_upper hL d3 true
  have d5 := refl_process_upper hrefl d4
  have d6 := rotor_process_upper hL d5 false
  have d7 := rotor_process_upper hM d6 false
  have d8 := rotor_process_upper hR d7 false
  have e8 := plug_process_inj hpb c8 d8 heq
  have e7 := rotor_process_inj hR c7 d7 false e8
  have e6 := rotor_process_inj hM c6 d6 false e7
  have e5 := rotor_process_inj hL c5 d5 false e6
  have e4 := refl_process_inj hrefl c4 d4 e5
  have e3 := rotor_process_inj hL c3 d3 true e4
  have e2 := rotor_process_inj hM c2 d2 true e3
  have e1 := rotor_process_inj hR c1 d1 true e2
  exact plug_process_inj hpb hc hd e1

theorem encryptCharChecked_eq {m : EnigmaMachine} (h : MachineWF m) {c : Char}
    (hc : cpp_isalpha c = true) :
    encryptCharChecked m c = some (encryptChar m c).2 := by
  obtain ⟨hL, hM, hR, hrefl, hpb⟩ := machineWF_rotateRotors h
  have c1 := plug_process_upper hpb hc
  have c2 := rotor_process_upper hR c1 true
  have c3 := rotor_process_upper hM c2 true
  have c4 := rotor_process_upper hL c3 true
  have c5 := refl_process_upper hrefl c4
  have c6 := rotor_process_upper hL c5 false
  have c7 := rotor_process_upper hM c6 false
  simp only [encryptCharChecked,
    rotor_processChecked_eq hR c1 true,
    rotor_processChecked_eq hM c2 true,
    rotor_processChecked_eq hL c3 true,
    refl_processChecked_eq hrefl c4,
    rotor_processChecked_eq hL c5 false,
    rotor_processChecked_eq hM c6 false,
    rotor_processChecked_eq hR c7 false]
  rfl

/-!
Message-level lemmas about encrypt.
-/

theorem encrypt_state (m : EnigmaMachine) (msg : List Char) :
    (encrypt m msg).1 = rotateRotors^[msg.countP cpp_isalpha] m := by
  induction msg generalizing m with
  | nil => simp [encrypt]
  | cons c cs ih =>
      by_cases hc : cpp_isalpha c = true
      · simp only [encrypt, hc, if_true, List.countP_cons, hc, if_pos]
        rw [ih, encryptChar_fst]
        rw [Function.iterate_succ_apply]
      · simp only [encrypt, hc, if_false, List.countP_cons]
        exact ih m

theorem encrypt_forall2 {m : EnigmaMachine} (h : MachineWF m) (msg : List Char) :
    List.Forall₂ (fun c d => if cpp_isalpha c then IsUpper d else d = c)
      msg (encrypt m msg).2 := by
  induction msg generalizing m with
  | nil => simp [encrypt]
  | cons c cs ih =>
      by_cases hc : cpp_isalpha c = true
      · simp only [encrypt, hc, if_true]
        refine List.Forall₂.cons ?_ ?_
        · simp only [hc, if_true]
          exact encryptChar_upper h hc
        · rw [encryptChar_fst]
          exact ih (machineWF_rotateRotors h)
      · simp only [encrypt, hc, if_false]
        refine List.Forall₂.cons ?_ ?_
        · simp [hc]
        · exact ih h

theorem encrypt_filter {m : EnigmaMachine} (h : MachineWF m) (msg : List Char) :
    ((encrypt m msg).2.filter cpp_isalpha) =
      (encrypt m (msg.filter cpp_isalpha)).2 := by
  induction msg generalizing m with
  | nil => simp [encrypt]
  | cons c cs ih =>
      by_cases hc : cpp_isalpha c = true
      · have hup := encryptChar_upper h hc
        simp only [List.filter_cons, encrypt, hc, if_true, upper_isalpha hup]
        rw [encryptChar_fst] at *
        exact congrArg _ (ih (machineWF_rotateRotors h))
      · simp only [List.filter_cons, encrypt]
        simp only [hc, Bool.false_eq_true, if_false]
        simp only [List.filter_cons, hc, Bool.false_eq_true, if_false]
        exact ih h

/-!
Inverse wiring construction lemmas.
-/

theorem wiring_index_inj {w : List Char} (h : IsAlphabetPerm w) {i j : Nat}
    (hi : i < 26) (hj : j < 26) (hij : i ≠ j) :
    (charToIndex (w.getD i (Char.ofNat 0))).toNat ≠
      (charToIndex (w.getD j (Char.ofNat 0))).toNat := by
  intro heq
  have hui := tableGet_upper h hi (Char.ofNat 0)
  have huj := tableGet_upper h hj (Char.ofNat 0)
  have ri := charToIndex_range_of_upper hui
  have rj := charToIndex_range_of_upper huj
  have hidx : charToIndex (w.getD i (Char.ofNat 0)) =
      charToIndex (w.getD j (Char.ofNat 0)) := by omega
  exact hij (tableGet_inj h hi hj (Char.ofNat 0)
    (charToIndex_inj_of_upper hui huj hidx))

theorem foldl_set_invariant (idx : Nat → Nat) (val : Nat → Char)
    (hidx : ∀ i, i < 26 → idx i < 26)
    (hinj : ∀ i j, i < 26 → j < 26 → i ≠ j → idx i ≠ idx j) :
    ∀ n, n ≤ 26 →
      ((List.range n).foldl (fun acc i => acc.set (idx i) (val i))
        (List.replicate 26 (Char.ofNat 0))).length = 26 ∧
      ∀ i, i < n →
        ((List.range n).foldl (fun acc i => acc.set (idx i) (val i))
          (List.replicate 26 (Char.ofNat 0))).getD (idx i) (Char.ofNat 0) = val i := by
  intro n
  induction n with
  | zero =>
      intro _
      refine ⟨by simp, ?_⟩
      intro i hi
      omega
  | succ k ih =>
      intro hk
      obtain ⟨hlen, hinv⟩ := ih (by omega)
      rw [List.range_succ, List.foldl_append, List.foldl_cons, List.foldl_nil]
      refine ⟨by rw [List.length_set]; exact hlen, ?_⟩
      intro i hi
      by_cases hik : i = k
      · have hlt : idx k < (List.foldl (fun acc i => acc.set (idx i) (val i))
            (List.replicate 26 (Char.ofNat 0)) (List.range k)).length := by
          rw [hlen]
          exact hidx k (by omega)
        rw [hik]
        rw [tableGetD_eq_getElem (by rw [List.length_set]; exact hlt)]
        exact List.getElem_set_self _
      · have hne := hinj i k (by omega) (by omega) hik
        have hlt : idx i < (List.foldl (fun acc i => acc.set (idx i) (val i))
            (List.replicate 26 (Char.ofNat 0)) (List.range k)).length := by
          rw [hlen]
          exact hidx i (by omega)
        rw [tableGetD_eq_getElem (by rw [List.length_set]; exact hlt)]
        rw [List.getElem_set_ne (fun hh => hne hh.symm)]
        rw [← tableGetD_eq_getElem hlt (Char.ofNat 0)]
        exact hinv i (by omega)

theorem buildReverseWiring_eq_fold {w : List Char} (h : IsAlphabetPerm w) :
    buildReverseWiring w =
      (List.range 26).foldl
        (fun acc i => acc.set (charToIndex (w.getD i (Char.ofNat 0))).toNat
          (indexToChar (i : Int)))
        (List.replicate 26 (Char.ofNat 0)) := by
  unfold buildReverseWiring
  apply List.foldl_ext
  intro acc i hi
  have hi26 : i < 26 := List.mem_range.mp hi
  have hup := tableGet_upper h hi26 (Char.ofNat 0)
  have hr := charToIndex_range_of_upper hup
  simp only [if_pos (And.intro hr.1 hr.2)]

theorem buildReverseWiring_getD {w : List Char} (h : IsAlphabetPerm w)
    {i : Nat} (hi : i < 26) :
    (buildReverseWiring w).getD
      (charToIndex (w.getD i (Char.ofNat 0))).toNat (Char.ofNat 0) =
    indexToChar (i : Int) := by
  rw [buildReverseWiring_eq_fold h]
  exact (foldl_set_invariant
    (fun i => (charToIndex (w.getD i (Char.ofNat 0))).toNat)
    (fun i => indexToChar (i : Int))
    (fun i hi => by
      have hh := charToIndex_range_of_upper (tableGet_upper h hi (Char.ofNat 0))
      show (charToIndex (w.getD i (Char.ofNat 0))).toNat < 26
      omega)
    (fun i j hi hj hij => wiring_index_inj h hi hj hij)
    26 (by omega)).2 i hi

/-!
Surjectivity machinery: an injective uppercase-to-uppercase map hits
every uppercase letter.
-/

theorem isUpper_mem_alphabet {c : Char} (h : IsUpper c) : c ∈ upperAlphabet := by
  have h1 : c.toNat < 55296 := by
    unfold IsUpper at h
    omega
  have h2 : c = Char.ofNat c.toNat := (char_toNat_inj (char_ofNat_toNat h1)).symm
  obtain ⟨hl, hu⟩ := h
  rw [h2]
  interval_cases hc : c.toNat <;> decide

theorem perm_alphabet_of_nodup_subset {l : List Char} (hnd : l.Nodup)
    (hsub : l ⊆ upperAlphabet) (hlen : l.length = 26) : l.Perm upperAlphabet := by
  obtain ⟨l2, hl2, hsl⟩ := List.subperm_of_subset hnd hsub
  have heq : l2 = upperAlphabet :=
    hsl.eq_of_length (by rw [hl2.length_eq, hlen]; decide)
  rw [← heq]
  exact hl2.symm

theorem upper_map_surjective (f : Char → Char)
    (hmaps : ∀ c, IsUpper c → IsUpper (f c))
    (hinj : ∀ c d, IsUpper c → IsUpper d → f c = f d → c = d) :
    ∀ d, IsUpper d → ∃ c, IsUpper c ∧ f c = d := by
  intro d hd
  have hall : ∀ c ∈ upperAlphabet, IsUpper c := by decide
  have hnd : (upperAlphabet.map f).Nodup := by
    refine List.Nodup.map_on ?_ (by decide)
    intro x hx y hy hxy
    exact hinj x y (hall x hx) (hall y hy) hxy
  have hsub : (upperAlphabet.map f) ⊆ upperAlphabet := by
    intro e he
    obtain ⟨c, hc, rfl⟩ := List.mem_map.mp he
    exact isUpper_mem_alphabet (hmaps c (hall c hc))
  have hperm := perm_alphabet_of_nodup_subset hnd hsub (by simp; decide)
  have hdmem : d ∈ upperAlphabet.map f := hperm.mem_iff.mpr (isUpper_mem_alphabet hd)
  obtain ⟨c, hc, hfc⟩ := List.mem_map.mp hdmem
  exact ⟨c, hall c hc, hfc⟩

theorem plugSymm_empty : PlugSymm { connections := [] } := by
  intro a b hab
  simp [List.lookup] at hab

theorem plugSymm_connect {pb pb' : Plugboard} {a b : Char} (h : PlugSymm pb)
    (hok : pb.connect a b = Except.ok pb') : PlugSymm pb' := by
  unfold Plugboard.connect at hok
  by_cases hcond : (pb.connections.lookup (cpp_toupper a)).isSome ∨
      (pb.connections.lookup (cpp_toupper b)).isSome
  · rw [if_pos hcond] at hok
    cases hok
  · rw [if_neg hcond] at hok
    injection hok with hok
    push_neg at hcond
    have hna : pb.connections.lookup (cpp_toupper a) = none :=
      Option.not_isSome_iff_eq_none.mp (by simpa using hcond.1)
    have hnb : pb.connections.lookup (cpp_toupper b) = none :=
      Option.not_isSome_iff_eq_none.mp (by simpa using hcond.2)
    intro x y hxy
    rw [← hok] at hxy
    simp only at hxy
    by_cases hxb : x = cpp_toupper b
    · rw [hxb, lookup_mapSet_self] at hxy
      injection hxy with hxy
      rw [← hxy, ← hok]
      simp only
      refine ⟨?_, toupper_notLower a⟩
      by_cases hab : cpp_toupper a = cpp_toupper b
      · rw [hab, lookup_mapSet_self, hxb]
      · rw [lookup_mapSet_ne _ _ _ _ hab, lookup_mapSet_self, hxb]
    · rw [lookup_mapSet_ne _ _ _ _ hxb] at hxy
      by_cases hxa : x = cpp_toupper a
      · rw [hxa, lookup_mapSet_self] at hxy
        injection hxy with hxy
        rw [← hxy, ← hok]
        simp only
        exact ⟨by rw [lookup_mapSet_self, hxa], toupper_notLower b⟩
      · rw [lookup_mapSet_ne _ _ _ _ hxa] at hxy
        obtain ⟨hyx, hnl⟩ := h x y hxy
        have hyb : y ≠ cpp_toupper b := by
          intro he
          rw [he, hnb] at hyx
          cases hyx
        have hya : y ≠ cpp_toupper a := by
          intro he
          rw [he, hna] at hyx
          cases hyx
        refine ⟨?_, hnl⟩
        rw [← hok]
        simp only
        rw [lookup_mapSet_ne _ _ _ _ hyb, lookup_mapSet_ne _ _ _ _ hya]
        exact hyx

theorem plugReachable_symm {pb : Plugboard} (h : PlugReachable pb) : PlugSymm pb := by
  induction h with
  | empty => exact plugSymm_empty
  | clear pb _ _ => exact plugSymm_empty
  | conn pb a b pb' _ hok ih => exact plugSymm_connect ih hok


/-!
Claim theorems.
-/

set_option maxRecDepth 1000000

/-- C1: the spec claims encrypt is an involution at fixed reset state for
every valid configuration.  The code violates this: with the demo driver's
own configuration (a well-formed machine: rotors I, II, III, reflector B,
positions 0 1 2, rings 0, plugboard AB CD EF), encrypting HELLOENIGMA and
then encrypting the ciphertext from the same starting state yields
IWWXOCHHSOR, not HELLOENIGMA.  The backward rotor pass applies the
position/ring offset with inverted signs relative to the forward pass, so
it is not the forward pass's inverse at nonzero offsets. -/
theorem c1_involution_fails : MachineWF demoMachine ∧
    (encrypt demoMachine "HELLOENIGMA".toList).2 = "ONUQOHBFHPK".toList ∧
    (encrypt demoMachine "ONUQOHBFHPK".toList).2 = "IWWXOCHHSOR".toList ∧
    "IWWXOCHHSOR".toList ≠ "HELLOENIGMA".toList := by
  refine ⟨by decide, by decide, by decide, by decide⟩

/-- C2 counterexample: from positions left 0, middle 0, right 20 on the
demo machine (middle notch 4, left notch 16), neither the middle rotor
(0 is not 4) nor the left rotor (0 is not 16) is at its notch before the
step, yet after one rotateRotors call both have advanced to 1 — because
the code triggers them off the right rotor landing on its own notch 21.
This refutes the claim that the middle and left rotors advance exactly
when the middle (resp. left) rotor was at its notch before rotation. -/
theorem c2_spec_rule_fails :
    (setRotorPositions demoMachine 0 0 20).rotorM.position = 0 ∧
    (setRotorPositions demoMachine 0 0 20).rotorM.notchPosition = 4 ∧
    (setRotorPositions demoMachine 0 0 20).rotorL.position = 0 ∧
    (setRotorPositions demoMachine 0 0 20).rotorL.notchPosition = 16 ∧
    (rotateRotors (setRotorPositions demoMachine 0 0 20)).rotorM.position = 1 ∧
    (rotateRotors (setRotorPositions demoMachine 0 0 20)).rotorL.position = 1 := by
  refine ⟨by decide, by decide, by decide, by decide, by decide, by decide⟩

/-- C2 amended: on reduced positions (0..25), one rotateRotors call
advances the right rotor by one; the middle and the left rotor both
advance exactly when the right rotor sits at its own notch after its
advance; the left rotor additionally advances when the middle rotor was
at its notch before any rotation this step (both increments can combine);
nothing else moves: every other rotor attribute, the reflector and the
plugboard are unchanged. -/
theorem c2_stepping_rule (m : EnigmaMachine)
    (hL0 : 0 ≤ m.rotorL.position) (hL : m.rotorL.position < 26)
    (hM0 : 0 ≤ m.rotorM.position) (hM : m.rotorM.position < 26)
    (hR0 : 0 ≤ m.rotorR.position) (hR : m.rotorR.position < 26) :
    (rotateRotors m).rotorR.position = (m.rotorR.position + 1) % 26 ∧
    ((rotateRotors m).rotorM.position =
      if (m.rotorR.position + 1) % 26 = m.rotorR.notchPosition
      then (m.rotorM.position + 1) % 26 else m.rotorM.position) ∧
    ((rotateRotors m).rotorL.position =
      (m.rotorL.position +
        (if (m.rotorR.position + 1) % 26 = m.rotorR.notchPosition then 1 else 0) +
        (if m.rotorM.position = m.rotorM.notchPosition then 1 else 0)) % 26) ∧
    (rotateRotors m).rotorL.wiring = m.rotorL.wiring ∧
    (rotateRotors m).rotorL.reverseWiring = m.rotorL.reverseWiring ∧
    (rotateRotors m).rotorL.ringSetting = m.rotorL.ringSetting ∧
    (rotateRotors m).rotorL.notchPosition = m.rotorL.notchPosition ∧
    (rotateRotors m).rotorM.wiring = m.rotorM.wiring ∧
    (rotateRotors m).rotorM.reverseWiring = m.rotorM.reverseWiring ∧
    (rotateRotors m).rotorM.ringSetting = m.rotorM.ringSetting ∧
    (rotateRotors m).rotorM.notchPosition = m.rotorM.notchPosition ∧
    (rotateRotors m).rotorR.wiring = m.rotorR.wiring ∧
    (rotateRotors m).rotorR.reverseWiring = m.rotorR.reverseWiring ∧
    (rotateRotors m).rotorR.ringSetting = m.rotorR.ringSetting ∧
    (rotateRotors m).rotorR.notchPosition = m.rotorR.notchPosition ∧
    (rotateRotors m).reflector = m.reflector ∧
    (rotateRotors m).plugboard = m.plugboard := by
  refine ⟨rotateRotors_positionR m hR0 hR, rotateRotors_positionM m hM0 hM hR0 hR,
    rotateRotors_positionL m hL0 hL hR0 hR, ?_, ?_, ?_, ?_, ?_, ?_, ?_, ?_,
    ?_, ?_, ?_, ?_, rotateRotors_reflector m, rotateRotors_plugboard m⟩
  all_goals {
    first
      | (rw [rotateRotors_rotorL]; split <;> split <;> rfl)
      | (rw [rotateRotors_rotorM]; split <;> rfl)
      | (rw [rotateRotors_rotorR]; rfl)
  }

/-- C2 witness: the stepping rule applied to the demo machine. -/
theorem c2_stepping_rule_witness :
    (rotateRotors demoMachine).rotorR.position =
      (demoMachine.rotorR.position + 1) % 26 :=
  (c2_stepping_rule demoMachine (by decide) (by decide) (by decide)
    (by decide) (by decide) (by decide)).1

/-- C3: at any fixed well-formed machine state the per-character transform
of encryptChar is a bijection of the 26 uppercase letters: it maps
uppercase to uppercase, no two distinct letters collide, and every
uppercase letter is reached. -/
theorem c3_encryptChar_bijective (m : EnigmaMachine) (h : MachineWF m) :
    (∀ c, IsUpper c → IsUpper (encryptChar m c).2) ∧
    (∀ c d, IsUpper c → IsUpper d →
      (encryptChar m c).2 = (encryptChar m d).2 → c = d) ∧
    (∀ d, IsUpper d → ∃ c, IsUpper c ∧ (encryptChar m c).2 = d) := by
  refine ⟨fun c hc => encryptChar_upper h (upper_isalpha hc),
    fun c d hc hd => encryptChar_inj h hc hd, ?_⟩
  exact upper_map_surjective (fun c => (encryptChar m c).2)
    (fun c hc => encryptChar_upper h (upper_isalpha hc))
    (fun c d hc hd => encryptChar_inj h hc hd)

/-- C3 witness: the bijection properties hold on the demo machine at H. -/
theorem c3_witness : IsUpper (encryptChar demoMachine 'H').2 :=
  (c3_encryptChar_bijective demoMachine (by decide)).1 'H' (by decide)

/-- C4: rotor construction succeeds on a 26-letter wiring permutation and
precomputes the exact functional inverse: for every index i below 26, the
reverse wiring at index charToIndex(wiring[i]) holds indexToChar(i). -/
theorem c4_reverseWiring_inverse (w : List Char) (h : IsAlphabetPerm w) :
    (∀ notch name, mkRotor w notch name =
      Except.ok { wiring := w, name := name, position := 0, ringSetting := 0,
                  reverseWiring := buildReverseWiring w, notchPosition := notch }) ∧
    ∀ i : Nat, i < 26 →
      (buildReverseWiring w).getD
        (charToIndex (w.getD i (Char.ofNat 0))).toNat (Char.ofNat 0) =
      indexToChar (i : Int) := by
  constructor
  · intro notch name
    unfold mkRotor
    rw [if_neg (by rw [h.1]; omega)]
  · intro i hi
    exact buildReverseWiring_getD h hi

/-- C4 witness: the inverse wiring property at rotor I's wiring, index 0. -/
theorem c4_witness :
    (buildReverseWiring "EKMFLGDQVZNTOWYHXUSPAIBRCJ".toList).getD
      (charToIndex ("EKMFLGDQVZNTOWYHXUSPAIBRCJ".toList.getD 0 (Char.ofNat 0))).toNat
      (Char.ofNat 0) = indexToChar (0 : Int) :=
  (c4_reverseWiring_inverse "EKMFLGDQVZNTOWYHXUSPAIBRCJ".toList (by decide)).2
    0 (by decide)

/-- C5 counterexample: the claim says indexToChar wraps every integer to
the letter at the mathematical residue, but the C++ remainder truncates
toward zero: at -1 the mathematical residue is 25 (letter Z), while the
code produces the at-sign character, not a letter at all. -/
theorem c5_negative_fails :
    indexToChar (-1) = '@' ∧ (-1 : Int) % 26 = 25 ∧ indexToChar 25 = 'Z' ∧
    indexToChar (-1) ≠ 'Z' := by
  refine ⟨by decide, by decide, by decide, by decide⟩

/-- C5 amended: for every non-negative integer n, indexToChar n is the
uppercase letter whose index is the mathematical n mod 26. -/
theorem c5_indexToChar_wraps (n : Int) (h : 0 ≤ n) :
    indexToChar n = indexToChar (n % 26) ∧
    (indexToChar n).toNat = 65 + (n % 26).toNat ∧
    IsUpper (indexToChar n) := by
  have ht : n.tmod 26 = n % 26 := Int.tmod_eq_emod h (by omega)
  have hr : 0 ≤ n % 26 ∧ n % 26 < 26 := ⟨Int.emod_nonneg n (by omega),
    Int.emod_lt_of_pos n (by omega)⟩
  have heq : indexToChar n = indexToChar (n % 26) := by
    unfold indexToChar ALPHABET_SIZE
    rw [ht, Int.tmod_eq_emod hr.1 (by omega), Int.emod_emod_of_dvd n (dvd_refl 26)]
  refine ⟨heq, ?_, ?_⟩
  · rw [heq]
    rw [indexToChar_eq_of_range hr.1 hr.2]
  · rw [heq]
    exact indexToChar_upper hr.1 hr.2

/-- C5 witness: the amended statement at 30. -/
theorem c5_witness :
    indexToChar 30 = indexToChar ((30 : Int) % 26) ∧
    (indexToChar 30).toNat = 65 + ((30 : Int) % 26).toNat ∧
    IsUpper (indexToChar (30 : Int)) :=
  c5_indexToChar_wraps 30 (by decide)

/-- C6: encrypt consumes exactly the alphabetic characters: the final
machine state is the stepping function iterated once per alphabetic
character (so no state changes on other characters), the output pairs
each alphabetic input with an uppercase letter and each non-alphabetic
input with itself, and filtering the output to letters equals encrypting
the letters-only input (punctuation is transparent to the cipher). -/
theorem c6_encrypt_passthrough (m : EnigmaMachine) (msg : List Char)
    (h : MachineWF m) :
    (encrypt m msg).1 = rotateRotors^[msg.countP cpp_isalpha] m ∧
    List.Forall₂ (fun c d => if cpp_isalpha c then IsUpper d else d = c)
      msg (encrypt m msg).2 ∧
    ((encrypt m msg).2.filter cpp_isalpha) =
      (encrypt m (msg.filter cpp_isalpha)).2 :=
  ⟨encrypt_state m msg, encrypt_forall2 h msg, encrypt_filter h msg⟩

/-- C6 witness: the passthrough properties on the demo machine and the
message HI, U! (4 letters, 2 non-letters). -/
theorem c6_witness :
    (encrypt demoMachine "HI, U!".toList).1 =
      rotateRotors^[("HI, U!".toList).countP cpp_isalpha] demoMachine ∧
    List.Forall₂ (fun c d => if cpp_isalpha c then IsUpper d else d = c)
      ("HI, U!".toList) (encrypt demoMachine "HI, U!".toList).2 ∧
    ((encrypt demoMachine "HI, U!".toList).2.filter cpp_isalpha) =
      (encrypt demoMachine (("HI, U!".toList).filter cpp_isalpha)).2 :=
  c6_encrypt_passthrough demoMachine "HI, U!".toList (by decide)

/-- C7: connect raises exactly when one of the (uppercased) letters is
already a key of the pairing map — and the check precedes any insertion
in the source, so a raising call leaves the map untouched (in this
embedding the error branch returns no new state) — and a successful
connect makes process map each of the two letters to the other. -/
theorem c7_connect_spec (pb : Plugboard) (a b : Char) :
    ((∃ s, pb.connect a b = Except.error s) ↔
      ((pb.connections.lookup (cpp_toupper a)).isSome = true ∨
       (pb.connections.lookup (cpp_toupper b)).isSome = true)) ∧
    (∀ pb', pb.connect a b = Except.ok pb' →
      pb'.process a = cpp_toupper b ∧ pb'.process b = cpp_toupper a) := by
  constructor
  · unfold Plugboard.connect
    by_cases hcond : (pb.connections.lookup (cpp_toupper a)).isSome = true ∨
        (pb.connections.lookup (cpp_toupper b)).isSome = true
    · rw [if_pos hcond]
      exact iff_of_true ⟨_, rfl⟩ hcond
    · rw [if_neg hcond]
      refine iff_of_false ?_ hcond
      intro he
      obtain ⟨s, hs⟩ := he
      cases hs
  · intro pb' hok
    unfold Plugboard.connect at hok
    by_cases hcond : (pb.connections.lookup (cpp_toupper a)).isSome = true ∨
        (pb.connections.lookup (cpp_toupper b)).isSome = true
    · rw [if_pos hcond] at hok
      cases hok
    · rw [if_neg hcond] at hok
      injection hok with hok
      rw [← hok]
      unfold Plugboard.process
      simp only
      by_cases hab : cpp_toupper a = cpp_toupper b
      · rw [hab, lookup_mapSet_self]
        exact ⟨rfl, rfl⟩
      · constructor
        · rw [lookup_mapSet_ne _ _ _ _ hab, lookup_mapSet_self]
        · rw [lookup_mapSet_self]

/-- C7 witness: connecting A and B on an empty plugboard succeeds and
pairs them both ways. -/
theorem c7_witness :
    Plugboard.process pbAB 'A' = cpp_toupper 'B' ∧
    Plugboard.process pbAB 'B' = cpp_toupper 'A' :=
  (c7_connect_spec { connections := [] } 'A' 'B').2 pbAB (by rfl)

/-- C8: component construction fails exactly on a wiring whose length is
not 26, machine construction fails exactly on a rotor count other than 3
(both raised at the constructing call, modelled by the Except result of
the constructor itself), and once a machine is well-formed the checked
signal path never fails on a letter: every table index stays inside the
alphabet and encryptChar produces its result. -/
theorem c8_construction_and_totality :
    (∀ w notch name, (∃ s, mkRotor w notch name = Except.error s) ↔ w.length ≠ 26) ∧
    (∀ w name, (∃ s, mkReflector w name = Except.error s) ↔ w.length ≠ 26) ∧
    (∀ rotors refl, (∃ s, mkEnigmaMachine rotors refl = Except.error s) ↔
      rotors.length ≠ 3) ∧
    (∀ m c, MachineWF m → cpp_isalpha c = true →
      encryptCharChecked m c = some (encryptChar m c).2) := by
  refine ⟨?_, ?_, ?_, fun m c h hc => encryptCharChecked_eq h hc⟩
  · intro w notch name
    unfold mkRotor
    by_cases hlen : w.length = 26
    · rw [if_neg (by omega)]
      simp [hlen]
    · rw [if_pos (by omega)]
      simp [hlen]
  · intro w name
    unfold mkReflector
    by_cases hlen : w.length = 26
    · rw [if_neg (by omega)]
      simp [hlen]
    · rw [if_pos (by omega)]
      simp [hlen]
  · intro rotors refl
    match rotors with
    | [] => simp [mkEnigmaMachine]
    | [r0] => simp [mkEnigmaMachine]
    | [r0, r1] => simp [mkEnigmaMachine]
    | [r0, r1, r2] => simp [mkEnigmaMachine]
    | r0 :: r1 :: r2 :: r3 :: rest => simp [mkEnigmaMachine, List.length_cons]

/-- C8 witness: on the demo machine the checked signal path produces the
encryption of H. -/
theorem c8_witness :
    encryptCharChecked demoMachine 'H' = some (encryptChar demoMachine 'H').2 :=
  c8_construction_and_totality.2.2.2 demoMachine 'H' (by decide) (by decide)

/-- C9: in every plugboard state reachable through default construction,
clearConnections and successful connect calls (process itself consumes no
state in this embedding, matching the source, which never writes to the
map during process), the mapping is an involution on uppercase letters
and fixes every unpaired letter. -/
theorem c9_plugboard_involution (pb : Plugboard) (h : PlugReachable pb) :
    ∀ x, IsUpper x →
      pb.process (pb.process x) = x ∧
      (pb.connections.lookup x = none → pb.process x = x) := by
  intro x hx
  refine ⟨plug_process_involution (plugReachable_symm h) (toupper_of_upper hx), ?_⟩
  intro hn
  unfold Plugboard.process
  simp [toupper_of_upper hx, hn]

/-- C9 witness: after connecting A and B from the empty plugboard, the
pairing is an involution at Q and fixes the unpaired Q. -/
theorem c9_witness :
    Plugboard.process pbAB (Plugboard.process pbAB 'Q') = 'Q' ∧
    (pbAB.connections.lookup 'Q' = none → Plugboard.process pbAB 'Q' = 'Q') :=
  c9_plugboard_involution pbAB
    (PlugReachable.conn { connections := [] } 'A' 'B' pbAB PlugReachable.empty (by rfl))
    'Q' (by decide)

/-- C10: connecting a fresh letter to itself succeeds (the already-paired
check does not reject a self-pairing on a fresh letter), records the
self-pairing, after which process fixes the letter and every later
connect call involving it raises the configuration error. -/
theorem c10_self_connect (pb : Plugboard) (a : Char)
    (h : pb.connections.lookup (cpp_toupper a) = none) :
    ∃ pb', pb.connect a a = Except.ok pb' ∧
      pb'.process a = cpp_toupper a ∧
      ∀ x y, (cpp_toupper x = cpp_toupper a ∨ cpp_toupper y = cpp_toupper a) →
        ∃ s, pb'.connect x y = Except.error s := by
  refine ⟨Plugboard.mk
    (mapSet (mapSet pb.connections (cpp_toupper a) (cpp_toupper a))
      (cpp_toupper a) (cpp_toupper a)), ?_, ?_, ?_⟩
  · unfold Plugboard.connect
    rw [if_neg (by simp [h])]
  · unfold Plugboard.process
    simp only
    rw [lookup_mapSet_self]
  · intro x y hxy
    unfold Plugboard.connect
    rw [if_pos ?_]
    · exact ⟨_, rfl⟩
    · rcases hxy with hx | hy
      · left
        rw [hx, lookup_mapSet_self]
        rfl
      · right
        rw [hy, lookup_mapSet_self]
        rfl

/-- C10 witness: self-connecting Q on the empty plugboard. -/
theorem c10_witness :
    ∃ pb', Plugboard.connect { connections := [] } 'Q' 'Q' = Except.ok pb' ∧
      pb'.process 'Q' = cpp_toupper 'Q' ∧
      ∀ x y, (cpp_toupper x = cpp_toupper 'Q' ∨ cpp_toupper y = cpp_toupper 'Q') →
        ∃ s, pb'.connect x y = Except.error s :=
  c10_self_connect { connections := [] } 'Q' (by decide)
